import Mathlib

set_option maxHeartbeats 1000000

/-! Shallow embedding of the ReactModularizer extraction engine found in
modularize.js (CLI) and pages/api/modularize.js (API): the string predicates,
the Babel traversal that collects and removes extractable components, the
module generation step, and the textual import splice into the host file. -/

/-- Models JavaScript substring containment over character lists: true when
pat occurs as a contiguous run inside the second list. -/
def containsSubList (pat : List Char) : List Char → Bool
  | [] => pat.isEmpty
  | c :: cs => (List.isPrefixOf pat (c :: cs)) || containsSubList pat cs

/-- Models the JavaScript call s.includes(pat). -/
def jsIncludes (s pat : String) : Bool := containsSubList pat.toList s.toList

/-- Models componentNeedsReact from modularize.js: a substring test for the
five runtime markers useState, useEffect, React., a left angle bracket, and a
self-closing tag end. -/
def componentNeedsReact (code : String) : Bool :=
  jsIncludes code "useState" || jsIncludes code "useEffect" ||
  jsIncludes code "React." || jsIncludes code "<" || jsIncludes code "/>"

/-- The hardcoded excludedNames list inside isExtractableComponent in the CLI
modularize.js. -/
def excludedNames : List String := ["App", "MyApp", "Home", "Index", "Page", "Layout"]

/-- Models isExtractableComponent from the CLI modularize.js: the name must be
truthy (non-empty), its first character must equal its own toUpperCase image,
it must not be in excludedNames, and its length must exceed 1. -/
def isExtractableComponent (name : String) : Bool :=
  !(name == "") &&
  (match name.toList with
   | [] => true
   | c :: _ => c == c.toUpper) &&
  !(excludedNames.contains name) &&
  decide (1 < name.toList.length)

/-- Models isExtractableComponent from pages/api/modularize.js, where only the
single name App is excluded. -/
def isExtractableComponentApi (name : String) : Bool :=
  !(name == "") &&
  (match name.toList with
   | [] => true
   | c :: _ => c == c.toUpper) &&
  !(name == "App") &&
  decide (1 < name.toList.length)

/-- The initializer shapes the VariableDeclaration visitor distinguishes. -/
inductive InitType where
  | arrowFunctionExpression
  | functionExpression
  | otherExpr
deriving DecidableEq

/-- One declarator of a VariableDeclaration: the optionally present bound
identifier name and the shape of its initializer (none when absent). -/
structure Declarator where
  name : Option String
  init : Option InitType
deriving DecidableEq

/-- Babel AST statement nodes as the engine observes them. Every node carries
the source text the code generator prints for it at parse time, plus the list
of statement-like nodes nested below it that Babel traverse would visit while
descending into the node. -/
inductive Stmt where
  | importDecl (code : String)
  | functionDecl (name : Option String) (code : String) (children : List Stmt)
  | variableDecl (decls : List Declarator) (code : String) (children : List Stmt)
  | other (code : String) (children : List Stmt)

/-- One entry of the extractedComponents accumulator. -/
structure Component where
  name : String
  code : String
  type : String
  needsReact : Bool
deriving DecidableEq

/-- One entry of the generated components output list. -/
structure GeneratedModule where
  name : String
  filename : String
  code : String
deriving DecidableEq

/-- The candidates a FunctionDeclaration visit pushes: one when the node has a
name and the classifier accepts it, none otherwise. -/
def scanFunDecl (ex : String → Bool) (n : Option String) (code : String) : List Component :=
  match n with
  | some name =>
      if ex name then
        [{ name := name, code := code, type := "function",
           needsReact := componentNeedsReact code }]
      else []
  | none => []

/-- The name a declarator contributes when it binds a plain identifier whose
initializer is an arrow function or an anonymous function expression. -/
def declCandidateName (d : Declarator) : Option String :=
  match d.name, d.init with
  | some n, some InitType.arrowFunctionExpression => some n
  | some n, some InitType.functionExpression => some n
  | _, _ => none

/-- The candidates a VariableDeclaration visit pushes: one per qualifying
declarator, in declarator order, each capturing the whole statement text. -/
def scanVarDecl (ex : String → Bool) (ds : List Declarator) (code : String) : List Component :=
  ds.filterMap (fun d =>
    match declCandidateName d with
    | some n =>
        if ex n then
          some { name := n, code := code, type := "arrow",
                 needsReact := componentNeedsReact code }
        else none
    | none => none)

/-- Models the candidate collection of extractComponents: Babel traverse
visits every FunctionDeclaration and VariableDeclaration node at every depth
of the tree, in pre-order, and the removal set is applied only after the
whole traversal finishes. -/
def scanStmts (ex : String → Bool) : List Stmt → List Component
  | [] => []
  | Stmt.importDecl _ :: ss => scanStmts ex ss
  | Stmt.functionDecl n code cs :: ss =>
      scanFunDecl ex n code ++ scanStmts ex cs ++ scanStmts ex ss
  | Stmt.variableDecl ds code cs :: ss =>
      scanVarDecl ex ds code ++ scanStmts ex cs ++ scanStmts ex ss
  | Stmt.other _ cs :: ss => scanStmts ex cs ++ scanStmts ex ss

/-- The import line pushed onto the imports accumulator for one candidate. -/
def importLine (name : String) : String :=
  "import " ++ name ++ " from \x27./components/" ++ name ++ "\x27;"

/-- The import lines a FunctionDeclaration visit pushes. -/
def importsFunDecl (ex : String → Bool) (n : Option String) : List String :=
  match n with
  | some name => if ex name then [importLine name] else []
  | none => []

/-- The import lines a VariableDeclaration visit pushes. -/
def importsVarDecl (ex : String → Bool) (ds : List Declarator) : List String :=
  ds.filterMap (fun d =>
    match declCandidateName d with
    | some n => if ex n then some (importLine n) else none
    | none => none)

/-- Models the imports accumulator of extractComponents, filled by the same
traversal that fills extractedComponents. -/
def scanImports (ex : String → Bool) : List Stmt → List String
  | [] => []
  | Stmt.importDecl _ :: ss => scanImports ex ss
  | Stmt.functionDecl n _ cs :: ss =>
      importsFunDecl ex n ++ scanImports ex cs ++ scanImports ex ss
  | Stmt.variableDecl ds _ cs :: ss =>
      importsVarDecl ex ds ++ scanImports ex cs ++ scanImports ex ss
  | Stmt.other _ cs :: ss => scanImports ex cs ++ scanImports ex ss

/-- Whether the FunctionDeclaration visitor adds this node to the removal
set. -/
def funDeclMarked (ex : String → Bool) (n : Option String) : Bool :=
  match n with
  | some name => ex name
  | none => false

/-- Whether the VariableDeclaration visitor adds this statement to the
removal set: it does as soon as one declarator qualifies. -/
def varDeclMarked (ex : String → Bool) (ds : List Declarator) : Bool :=
  ds.any (fun d =>
    match declCandidateName d with
    | some n => ex n
    | none => false)

/-- Models the removal pass of extractComponents: every marked node is removed
from its container, at whatever depth it sits; children of surviving nodes are
pruned recursively because every collected path is removed. -/
def pruneStmts (ex : String → Bool) : List Stmt → List Stmt
  | [] => []
  | Stmt.importDecl c :: ss => Stmt.importDecl c :: pruneStmts ex ss
  | Stmt.functionDecl n code cs :: ss =>
      if funDeclMarked ex n then pruneStmts ex ss
      else Stmt.functionDecl n code (pruneStmts ex cs) :: pruneStmts ex ss
  | Stmt.variableDecl ds code cs :: ss =>
      if varDeclMarked ex ds then pruneStmts ex ss
      else Stmt.variableDecl ds code (pruneStmts ex cs) :: pruneStmts ex ss
  | Stmt.other c cs :: ss => Stmt.other c (pruneStmts ex cs) :: pruneStmts ex ss

/-- Models JavaScript whitespace for trim purposes (ASCII fragment). -/
def jsIsWhitespace (c : Char) : Bool :=
  c == ' ' || c == '\t' || c == '\n' || c == '\r'

/-- Models the JavaScript call s.trim(). -/
def jsTrim (s : String) : String :=
  String.mk (((s.toList.dropWhile jsIsWhitespace).reverse.dropWhile jsIsWhitespace).reverse)

/-- Models the JavaScript call s.startsWith(pat). -/
def jsStartsWith (s pat : String) : Bool :=
  List.isPrefixOf pat.toList s.toList

/-- Models the JavaScript call s.split(newline) on character lists: splits at
every newline and keeps empty segments. -/
def splitCharList : List Char → List (List Char)
  | [] => [[]]
  | c :: rest =>
      if c == '\n' then [] :: splitCharList rest
      else
        match splitCharList rest with
        | [] => [[c]]
        | g :: gs => (c :: g) :: gs

/-- Models content.split(newline) producing the line list. -/
def splitLines (s : String) : List String :=
  (splitCharList s.toList).map (fun l => String.mk l)

/-- Models lines.join(newline). -/
def joinLines : List String → String
  | [] => ""
  | [l] => l
  | l :: ls => l ++ "\n" ++ joinLines ls

/-- Models the insertion-point loop of updateAppFile: walk the lines carrying
the running index i and the last recorded insertion point acc; a line whose
trimmed text starts with the word import moves the insertion point just past
it; the first trimmed-non-empty line that is not an import stops the walk. -/
def findInsertIndex : List String → Nat → Nat → Nat
  | [], _, acc => acc
  | l :: ls, i, acc =>
      if jsStartsWith (jsTrim l) "import " then findInsertIndex ls (i + 1) (i + 1)
      else if !(jsTrim l == "") then acc
      else findInsertIndex ls (i + 1) acc

/-- Models lines.splice(insertIndex, 0, empty, ...imports): the line list with
one blank line and then the import lines inserted at the found index. -/
def spliceImports (lines : List String) (imports : List String) : List String :=
  let k := findInsertIndex lines 0 0
  lines.take k ++ [""] ++ imports ++ lines.drop k

/-- Models the external prettier formatting step. The formatter is an external
collaborator whose canonicalization the engine treats as opaque and whose
failure path returns its input unchanged; the embedding takes it as the
identity on text. -/
def formatCode (code : String) : String := code

/-- Models the per-statement output of the Babel code generator: each node in
the embedding carries its printed text. -/
def stmtCode : Stmt → String
  | Stmt.importDecl c => c
  | Stmt.functionDecl _ c _ => c
  | Stmt.variableDecl _ c _ => c
  | Stmt.other c _ => c

/-- Models generate on a whole program: top-level statement texts joined by
newlines. -/
def generateProgram (ss : List Stmt) : String :=
  joinLines (ss.map stmtCode)

/-- Models updateAppFile after the tree has been serialized: when the imports
accumulator is non-empty, split into lines, splice the blank line and
the import lines at the found index, rejoin, and format; otherwise format the
serialized text as is. -/
def updateAppFile (content : String) (imports : List String) : String :=
  if imports.isEmpty then formatCode content
  else formatCode (joinLines (spliceImports (splitLines content) imports))

/-- The React import text prepended to a module that needs the runtime. -/
def reactImportText : String := "import React from \x27react\x27;\n\n"

/-- Models the regular-expression test for a word character in the pattern
used by generateComponentFiles. -/
def isWordChar (c : Char) : Bool := c.isAlpha || c.isDigit || c == '_'

/-- Models the regular-expression test for a whitespace character in the
pattern used by generateComponentFiles. -/
def isSpaceChar (c : Char) : Bool :=
  c == ' ' || c == '\t' || c == '\n' || c == '\r'

/-- Models the replacement-pattern expansion JavaScript String.replace applies
to its replacement string when the regular expression has no capture groups:
a double dollar collapses to one dollar, dollar-ampersand inserts the matched
text, dollar before a backquote (code 96) inserts the text preceding the
match, dollar before a straight quote (code 39) inserts the text following
the match, and every other dollar sequence stays literal. -/
def expandReplacement (matched before after : List Char) : List Char → List Char
  | [] => []
  | c :: rest =>
      if c == '$' then
        match rest with
        | [] => [c]
        | d :: rest2 =>
            if d == '$' then c :: expandReplacement matched before after rest2
            else if d == '&' then matched ++ expandReplacement matched before after rest2
            else if d == Char.ofNat 96 then before ++ expandReplacement matched before after rest2
            else if d == Char.ofNat 39 then after ++ expandReplacement matched before after rest2
            else c :: d :: expandReplacement matched before after rest2
      else c :: expandReplacement matched before after rest

/-- Models code.replace applied with the anchored pattern consisting of the
literal word function, one or more whitespace characters, and one or more
word characters: when the text starts with such a match the matched span is
swapped for the dollar-expanded replacement, otherwise the text is returned
unchanged; the match is anchored at the start, so the text before the match
is empty and the text after it is everything past the matched word run. -/
def replaceFunctionHead (code repl : String) : String :=
  let cs := code.toList
  let keyword := "function".toList
  if List.isPrefixOf keyword cs then
    let rest := cs.drop keyword.length
    let ws := rest.takeWhile isSpaceChar
    let afterWs := rest.dropWhile isSpaceChar
    let word := afterWs.takeWhile isWordChar
    if !ws.isEmpty && !word.isEmpty then
      String.mk (expandReplacement (keyword ++ ws ++ word) []
          (afterWs.dropWhile isWordChar) repl.toList
        ++ afterWs.dropWhile isWordChar)
    else code
  else code

/-- The export-converted body of one candidate inside generateComponentFiles:
a named function declaration has its leading function keyword and name
replaced by a default-exported header, a bound expression keeps its statement
and gains an appended default-export statement. -/
def convertedBody (c : Component) : String :=
  if c.type == "function" then
    replaceFunctionHead c.code ("export default function " ++ c.name)
  else
    c.code ++ ";\n\nexport default " ++ c.name ++ ";"

/-- Models one iteration of generateComponentFiles: filename derivation, the
optional React import, the export conversion, and formatting. -/
def generateComponentFile (c : Component) : GeneratedModule :=
  { name := c.name,
    filename := c.name ++ ".jsx",
    code := formatCode ((if c.needsReact then reactImportText else "") ++ convertedBody c) }

/-- Models generateComponentFiles over the accumulated candidate list. -/
def generateComponentFiles (cs : List Component) : List GeneratedModule :=
  cs.map generateComponentFile

/-- The result record of processCode in the CLI modularize.js. -/
structure ProcessResult where
  updatedApp : String
  components : List GeneratedModule
  extractedCount : Nat
deriving DecidableEq

/-- Models processCode of the CLI modularize.js on a parsed program: scan and
mark, generate the module list, then serialize the pruned tree and splice the
accumulated import lines into it. -/
def processCode (ast : List Stmt) : ProcessResult :=
  let comps := scanStmts isExtractableComponent ast
  let imports := scanImports isExtractableComponent ast
  let pruned := pruneStmts isExtractableComponent ast
  { updatedApp := updateAppFile (generateProgram pruned) imports,
    components := generateComponentFiles comps,
    extractedCount := comps.length }

/-- The result record of processCode in pages/api/modularize.js. -/
structure ApiResult where
  updatedApp : String
  components : List GeneratedModule
deriving DecidableEq

/-- Models processCode of pages/api/modularize.js: after extractComponents
runs, a run that found no candidates short-circuits and hands back the raw
input string with an empty module list. -/
def processCodeApi (code : String) (ast : List Stmt) : ApiResult :=
  let comps := scanStmts isExtractableComponentApi ast
  if comps.isEmpty then
    { updatedApp := code, components := [] }
  else
    let imports := scanImports isExtractableComponentApi ast
    let pruned := pruneStmts isExtractableComponentApi ast
    { updatedApp := updateAppFile (generateProgram pruned) imports,
      components := generateComponentFiles comps }

/-- Index of the last line anywhere in the list whose trimmed text starts
with the word import. -/
def lastImportPos : List String → Option Nat
  | [] => none
  | l :: ls =>
      match lastImportPos ls with
      | some j => some (j + 1)
      | none => if jsStartsWith (jsTrim l) "import " then some 0 else none

/-- Formalizes the spec notion of left-to-right source-declaration order: the
names of all component-shaped declarations of the unit collected in pre-order,
which is the order of their declaration sites in the source text, before any
classification is applied. -/
def sourceDeclNames : List Stmt → List String
  | [] => []
  | Stmt.importDecl _ :: ss => sourceDeclNames ss
  | Stmt.functionDecl n _ cs :: ss =>
      (match n with | some nm => [nm] | none => []) ++ sourceDeclNames cs ++ sourceDeclNames ss
  | Stmt.variableDecl ds _ cs :: ss =>
      ds.filterMap declCandidateName ++ sourceDeclNames cs ++ sourceDeclNames ss
  | Stmt.other _ cs :: ss => sourceDeclNames cs ++ sourceDeclNames ss

/-- Structural induction principle for statement lists that follows the shape
of the scanning and pruning recursions. -/
theorem stmtList_ind (P : List Stmt → Prop)
    (h0 : P [])
    (h1 : ∀ c ss, P ss → P (Stmt.importDecl c :: ss))
    (h2 : ∀ n code cs ss, P cs → P ss → P (Stmt.functionDecl n code cs :: ss))
    (h3 : ∀ ds code cs ss, P cs → P ss → P (Stmt.variableDecl ds code cs :: ss))
    (h4 : ∀ c cs ss, P cs → P ss → P (Stmt.other c cs :: ss)) :
    ∀ ss, P ss := by
  have key : ∀ n : Nat, ∀ ss : List Stmt, sizeOf ss < n → P ss := by
    intro n
    induction n with
    | zero => intro ss h; omega
    | succ m ih =>
      intro ss h
      match ss with
      | [] => exact h0
      | Stmt.importDecl c :: ss2 =>
          refine h1 c ss2 (ih ss2 ?_)
          simp at h
          omega
      | Stmt.functionDecl nm code cs :: ss2 =>
          refine h2 nm code cs ss2 (ih cs ?_) (ih ss2 ?_) <;> (simp at h; omega)
      | Stmt.variableDecl ds code cs :: ss2 =>
          refine h3 ds code cs ss2 (ih cs ?_) (ih ss2 ?_) <;> (simp at h; omega)
      | Stmt.other c cs :: ss2 =>
          refine h4 c cs ss2 (ih cs ?_) (ih ss2 ?_) <;> (simp at h; omega)
  intro ss
  exact key (sizeOf ss + 1) ss (by omega)

/-- Unfolding equation: scanning an empty program yields no candidates. -/
theorem scanStmts_nil (ex : String → Bool) : scanStmts ex [] = [] := by
  simp [scanStmts]

/-- Unfolding equation for an import statement at the head. -/
theorem scanStmts_cons_import (ex : String → Bool) (c : String) (ss : List Stmt) :
    scanStmts ex (Stmt.importDecl c :: ss) = scanStmts ex ss := by
  simp [scanStmts]

/-- Unfolding equation for a function declaration at the head. -/
theorem scanStmts_cons_fun (ex : String → Bool) (n : Option String) (code : String)
    (cs ss : List Stmt) :
    scanStmts ex (Stmt.functionDecl n code cs :: ss)
      = scanFunDecl ex n code ++ scanStmts ex cs ++ scanStmts ex ss := by
  simp [scanStmts]

/-- Unfolding equation for a variable declaration at the head. -/
theorem scanStmts_cons_var (ex : String → Bool) (ds : List Declarator) (code : String)
    (cs ss : List Stmt) :
    scanStmts ex (Stmt.variableDecl ds code cs :: ss)
      = scanVarDecl ex ds code ++ scanStmts ex cs ++ scanStmts ex ss := by
  simp [scanStmts]

/-- Unfolding equation for any other statement at the head. -/
theorem scanStmts_cons_other (ex : String → Bool) (c : String) (cs ss : List Stmt) :
    scanStmts ex (Stmt.other c cs :: ss)
      = scanStmts ex cs ++ scanStmts ex ss := by
  simp [scanStmts]

/-- Every candidate the FunctionDeclaration visitor pushes passed the
classifier and stored the needsReact flag computed from its captured text. -/
theorem mem_scanFunDecl (ex : String → Bool) (n : Option String) (code : String)
    (c : Component) (h : c ∈ scanFunDecl ex n code) :
    ex c.name = true ∧ c.needsReact = componentNeedsReact c.code := by
  unfold scanFunDecl at h
  match n with
  | none => simp at h
  | some nm =>
      by_cases hex : ex nm = true
      · simp [hex] at h
        subst h
        exact ⟨hex, rfl⟩
      · simp [hex] at h

/-- Every candidate the VariableDeclaration visitor pushes passed the
classifier and stored the needsReact flag computed from its captured text. -/
theorem mem_scanVarDecl (ex : String → Bool) (ds : List Declarator) (code : String)
    (c : Component) (h : c ∈ scanVarDecl ex ds code) :
    ex c.name = true ∧ c.needsReact = componentNeedsReact c.code := by
  unfold scanVarDecl at h
  rw [List.mem_filterMap] at h
  obtain ⟨d, _, hd⟩ := h
  revert hd
  match hdc : declCandidateName d with
  | none => intro hd; simp at hd
  | some n =>
      intro hd
      by_cases hex : ex n = true
      · simp [hex] at hd
        subst hd
        exact ⟨hex, rfl⟩
      · simp [hex] at hd

/-- Every candidate the scan produces passed the classifier and carries the
needsReact flag computed from its own captured text. -/
theorem mem_scanStmts (ex : String → Bool) :
    ∀ ss : List Stmt, ∀ c ∈ scanStmts ex ss,
      ex c.name = true ∧ c.needsReact = componentNeedsReact c.code := by
  refine stmtList_ind _ ?_ ?_ ?_ ?_ ?_
  · intro c h
    rw [scanStmts_nil] at h
    simp at h
  · intro cd ss ih c h
    rw [scanStmts_cons_import] at h
    exact ih c h
  · intro n code cs ss ihc ihs c h
    rw [scanStmts_cons_fun] at h
    rcases List.mem_append.mp h with h2 | h2
    · rcases List.mem_append.mp h2 with h3 | h3
      · exact mem_scanFunDecl ex n code c h3
      · exact ihc c h3
    · exact ihs c h2
  · intro ds code cs ss ihc ihs c h
    rw [scanStmts_cons_var] at h
    rcases List.mem_append.mp h with h2 | h2
    · rcases List.mem_append.mp h2 with h3 | h3
      · exact mem_scanVarDecl ex ds code c h3
      · exact ihc c h3
    · exact ihs c h2
  · intro cd cs ss ihc ihs c h
    rw [scanStmts_cons_other] at h
    rcases List.mem_append.mp h with h2 | h2
    · exact ihc c h2
    · exact ihs c h2

/-- Unfolding equation: no imports accumulate on an empty program. -/
theorem scanImports_nil (ex : String → Bool) : scanImports ex [] = [] := by
  simp [scanImports]

/-- Unfolding equation for an import statement at the head. -/
theorem scanImports_cons_import (ex : String → Bool) (c : String) (ss : List Stmt) :
    scanImports ex (Stmt.importDecl c :: ss) = scanImports ex ss := by
  simp [scanImports]

/-- Unfolding equation for a function declaration at the head. -/
theorem scanImports_cons_fun (ex : String → Bool) (n : Option String) (code : String)
    (cs ss : List Stmt) :
    scanImports ex (Stmt.functionDecl n code cs :: ss)
      = importsFunDecl ex n ++ scanImports ex cs ++ scanImports ex ss := by
  simp [scanImports]

/-- Unfolding equation for a variable declaration at the head. -/
theorem scanImports_cons_var (ex : String → Bool) (ds : List Declarator) (code : String)
    (cs ss : List Stmt) :
    scanImports ex (Stmt.variableDecl ds code cs :: ss)
      = importsVarDecl ex ds ++ scanImports ex cs ++ scanImports ex ss := by
  simp [scanImports]

/-- Unfolding equation for any other statement at the head. -/
theorem scanImports_cons_other (ex : String → Bool) (c : String) (cs ss : List Stmt) :
    scanImports ex (Stmt.other c cs :: ss)
      = scanImports ex cs ++ scanImports ex ss := by
  simp [scanImports]

/-- Unfolding equation: pruning an empty program is empty. -/
theorem pruneStmts_nil (ex : String → Bool) : pruneStmts ex [] = [] := by
  simp [pruneStmts]

/-- Unfolding equation for an import statement at the head. -/
theorem pruneStmts_cons_import (ex : String → Bool) (c : String) (ss : List Stmt) :
    pruneStmts ex (Stmt.importDecl c :: ss) = Stmt.importDecl c :: pruneStmts ex ss := by
  simp [pruneStmts]

/-- Unfolding equation for a function declaration at the head. -/
theorem pruneStmts_cons_fun (ex : String → Bool) (n : Option String) (code : String)
    (cs ss : List Stmt) :
    pruneStmts ex (Stmt.functionDecl n code cs :: ss)
      = if funDeclMarked ex n then pruneStmts ex ss
        else Stmt.functionDecl n code (pruneStmts ex cs) :: pruneStmts ex ss := by
  simp [pruneStmts]

/-- Unfolding equation for a variable declaration at the head. -/
theorem pruneStmts_cons_var (ex : String → Bool) (ds : List Declarator) (code : String)
    (cs ss : List Stmt) :
    pruneStmts ex (Stmt.variableDecl ds code cs :: ss)
      = if varDeclMarked ex ds then pruneStmts ex ss
        else Stmt.variableDecl ds code (pruneStmts ex cs) :: pruneStmts ex ss := by
  simp [pruneStmts]

/-- Unfolding equation for any other statement at the head. -/
theorem pruneStmts_cons_other (ex : String → Bool) (c : String) (cs ss : List Stmt) :
    pruneStmts ex (Stmt.other c cs :: ss)
      = Stmt.other c (pruneStmts ex cs) :: pruneStmts ex ss := by
  simp [pruneStmts]

/-- Unfolding equation: an empty program declares nothing. -/
theorem sourceDeclNames_nil : sourceDeclNames [] = [] := by
  simp [sourceDeclNames]

/-- Unfolding equation for an import statement at the head. -/
theorem sourceDeclNames_cons_import (c : String) (ss : List Stmt) :
    sourceDeclNames (Stmt.importDecl c :: ss) = sourceDeclNames ss := by
  simp [sourceDeclNames]

/-- Unfolding equation for a function declaration at the head. -/
theorem sourceDeclNames_cons_fun (n : Option String) (code : String) (cs ss : List Stmt) :
    sourceDeclNames (Stmt.functionDecl n code cs :: ss)
      = (match n with | some nm => [nm] | none => [])
          ++ sourceDeclNames cs ++ sourceDeclNames ss := by
  cases n <;> simp [sourceDeclNames]

/-- Unfolding equation for a variable declaration at the head. -/
theorem sourceDeclNames_cons_var (ds : List Declarator) (code : String) (cs ss : List Stmt) :
    sourceDeclNames (Stmt.variableDecl ds code cs :: ss)
      = ds.filterMap declCandidateName ++ sourceDeclNames cs ++ sourceDeclNames ss := by
  simp [sourceDeclNames]

/-- Unfolding equation for any other statement at the head. -/
theorem sourceDeclNames_cons_other (c : String) (cs ss : List Stmt) :
    sourceDeclNames (Stmt.other c cs :: ss)
      = sourceDeclNames cs ++ sourceDeclNames ss := by
  simp [sourceDeclNames]

/-- Scanning distributes over appending statement lists. -/
theorem scanStmts_append (ex : String → Bool) :
    ∀ a : List Stmt, ∀ b : List Stmt,
      scanStmts ex (a ++ b) = scanStmts ex a ++ scanStmts ex b := by
  refine stmtList_ind (fun a => ∀ b, scanStmts ex (a ++ b) = scanStmts ex a ++ scanStmts ex b)
    ?_ ?_ ?_ ?_ ?_
  · intro b
    rw [List.nil_append, scanStmts_nil, List.nil_append]
  · intro c ss ih b
    rw [List.cons_append, scanStmts_cons_import, scanStmts_cons_import, ih]
  · intro n code cs ss ihc ihs b
    rw [List.cons_append, scanStmts_cons_fun, scanStmts_cons_fun, ihs, List.append_assoc,
      List.append_assoc, List.append_assoc]
  · intro ds code cs ss ihc ihs b
    rw [List.cons_append, scanStmts_cons_var, scanStmts_cons_var, ihs, List.append_assoc,
      List.append_assoc, List.append_assoc]
  · intro c cs ss ihc ihs b
    rw [List.cons_append, scanStmts_cons_other, scanStmts_cons_other, ihs, List.append_assoc]

/-- The import lines a FunctionDeclaration visit pushes are exactly the import
lines derived from the candidates it pushes. -/
theorem importsFunDecl_eq (ex : String → Bool) (n : Option String) (code : String) :
    importsFunDecl ex n = (scanFunDecl ex n code).map (fun c => importLine c.name) := by
  unfold importsFunDecl scanFunDecl
  cases n with
  | none => simp
  | some nm => by_cases hex : ex nm = true <;> simp [hex]

/-- The import lines a VariableDeclaration visit pushes are exactly the import
lines derived from the candidates it pushes. -/
theorem importsVarDecl_eq (ex : String → Bool) (ds : List Declarator) (code : String) :
    importsVarDecl ex ds = (scanVarDecl ex ds code).map (fun c => importLine c.name) := by
  unfold importsVarDecl scanVarDecl
  induction ds with
  | nil => simp
  | cons d ds ih =>
      simp only [List.filterMap_cons]
      cases hdc : declCandidateName d with
      | none => simpa [hdc] using ih
      | some n =>
          by_cases hex : ex n = true
          · simpa [hdc, hex] using ih
          · simpa [hdc, hex] using ih

/-- The imports accumulator always holds exactly one import line per candidate,
in candidate order. -/
theorem scanImports_eq_map (ex : String → Bool) :
    ∀ ss : List Stmt,
      scanImports ex ss = (scanStmts ex ss).map (fun c => importLine c.name) := by
  refine stmtList_ind _ ?_ ?_ ?_ ?_ ?_
  · rw [scanImports_nil, scanStmts_nil]
    rfl
  · intro c ss ih
    rw [scanImports_cons_import, scanStmts_cons_import, ih]
  · intro n code cs ss ihc ihs
    rw [scanImports_cons_fun, scanStmts_cons_fun, List.map_append, List.map_append,
      importsFunDecl_eq ex n code, ihc, ihs]
  · intro ds code cs ss ihc ihs
    rw [scanImports_cons_var, scanStmts_cons_var, List.map_append, List.map_append,
      importsVarDecl_eq ex ds code, ihc, ihs]
  · intro c cs ss ihc ihs
    rw [scanImports_cons_other, scanStmts_cons_other, List.map_append, ihc, ihs]

/-- The candidate names a FunctionDeclaration visit pushes are the declared
name filtered through the classifier. -/
theorem scanFunDecl_names (ex : String → Bool) (n : Option String) (code : String) :
    (scanFunDecl ex n code).map Component.name
      = (match n with | some nm => [nm] | none => []).filter ex := by
  unfold scanFunDecl
  cases n with
  | none => simp
  | some nm => by_cases hex : ex nm = true <;> simp [hex, List.filter]

/-- The candidate names a VariableDeclaration visit pushes are its
component-shaped declarator names filtered through the classifier. -/
theorem scanVarDecl_names (ex : String → Bool) (ds : List Declarator) (code : String) :
    (scanVarDecl ex ds code).map Component.name
      = (ds.filterMap declCandidateName).filter ex := by
  unfold scanVarDecl
  induction ds with
  | nil => simp
  | cons d ds ih =>
      simp only [List.filterMap_cons]
      cases hdc : declCandidateName d with
      | none => simpa [hdc] using ih
      | some n =>
          by_cases hex : ex n = true
          · simpa [hdc, hex, List.filter] using ih
          · simpa [hdc, hex, List.filter] using ih

/-- The names of the scanned candidates are exactly the source-order
declaration names filtered through the classifier: discovery order is source
order and nothing is ever re-sorted. -/
theorem scanStmts_names_eq_filter (ex : String → Bool) :
    ∀ ss : List Stmt,
      (scanStmts ex ss).map Component.name = (sourceDeclNames ss).filter ex := by
  refine stmtList_ind _ ?_ ?_ ?_ ?_ ?_
  · rw [scanStmts_nil, sourceDeclNames_nil]
    rfl
  · intro c ss ih
    rw [scanStmts_cons_import, sourceDeclNames_cons_import, ih]
  · intro n code cs ss ihc ihs
    rw [scanStmts_cons_fun, sourceDeclNames_cons_fun, List.map_append, List.map_append,
      List.filter_append, List.filter_append, scanFunDecl_names ex n code, ihc, ihs]
  · intro ds code cs ss ihc ihs
    rw [scanStmts_cons_var, sourceDeclNames_cons_var, List.map_append, List.map_append,
      List.filter_append, List.filter_append, scanVarDecl_names ex ds code, ihc, ihs]
  · intro c cs ss ihc ihs
    rw [scanStmts_cons_other, sourceDeclNames_cons_other, List.map_append,
      List.filter_append, ihc, ihs]

/-- A FunctionDeclaration pushes no candidate exactly when it is not marked
for removal. -/
theorem scanFunDecl_nil_iff (ex : String → Bool) (n : Option String) (code : String) :
    scanFunDecl ex n code = [] ↔ funDeclMarked ex n = false := by
  unfold scanFunDecl funDeclMarked
  cases n with
  | none => simp
  | some nm => by_cases hex : ex nm = true <;> simp [hex]

/-- A VariableDeclaration pushes no candidate exactly when it is not marked
for removal. -/
theorem scanVarDecl_nil_iff (ex : String → Bool) (ds : List Declarator) (code : String) :
    scanVarDecl ex ds code = [] ↔ varDeclMarked ex ds = false := by
  unfold scanVarDecl varDeclMarked
  induction ds with
  | nil => simp
  | cons d ds ih =>
      simp only [List.filterMap_cons, List.any_cons]
      cases hdc : declCandidateName d with
      | none => simpa [hdc] using ih
      | some n =>
          by_cases hex : ex n = true
          · simp [hdc, hex]
          · simpa [hdc, hex] using ih

/-- A program in which the scan finds nothing is left untouched by the
removal pass. -/
theorem scan_nil_prune_id (ex : String → Bool) :
    ∀ ss : List Stmt, scanStmts ex ss = [] → pruneStmts ex ss = ss := by
  refine stmtList_ind _ ?_ ?_ ?_ ?_ ?_
  · intro _
    rw [pruneStmts_nil]
  · intro c ss ih h
    rw [scanStmts_cons_import] at h
    rw [pruneStmts_cons_import, ih h]
  · intro n code cs ss ihc ihs h
    rw [scanStmts_cons_fun] at h
    rcases List.append_eq_nil.mp h with ⟨h12, h3⟩
    rcases List.append_eq_nil.mp h12 with ⟨h1, h2⟩
    rw [pruneStmts_cons_fun, if_neg ?_, ihc h2, ihs h3]
    rw [(scanFunDecl_nil_iff ex n code).mp h1]
    simp
  · intro ds code cs ss ihc ihs h
    rw [scanStmts_cons_var] at h
    rcases List.append_eq_nil.mp h with ⟨h12, h3⟩
    rcases List.append_eq_nil.mp h12 with ⟨h1, h2⟩
    rw [pruneStmts_cons_var, if_neg ?_, ihc h2, ihs h3]
    rw [(scanVarDecl_nil_iff ex ds code).mp h1]
    simp
  · intro c cs ss ihc ihs h
    rw [scanStmts_cons_other] at h
    rcases List.append_eq_nil.mp h with ⟨h1, h2⟩
    rw [pruneStmts_cons_other, ihc h1, ihs h2]

/-- After the removal pass nothing scannable is left: scanning the pruned
program finds no candidate at any depth. -/
theorem scan_prune_nil (ex : String → Bool) :
    ∀ ss : List Stmt, scanStmts ex (pruneStmts ex ss) = [] := by
  refine stmtList_ind _ ?_ ?_ ?_ ?_ ?_
  · rw [pruneStmts_nil, scanStmts_nil]
  · intro c ss ih
    rw [pruneStmts_cons_import, scanStmts_cons_import, ih]
  · intro n code cs ss ihc ihs
    rw [pruneStmts_cons_fun]
    by_cases hm : funDeclMarked ex n = true
    · rw [if_pos hm]
      exact ihs
    · rw [if_neg hm, scanStmts_cons_fun, ihc, ihs]
      have h1 : scanFunDecl ex n code = [] := by
        rw [scanFunDecl_nil_iff]
        exact Bool.not_eq_true _ ▸ (by simpa using hm)
      rw [h1]
      rfl
  · intro ds code cs ss ihc ihs
    rw [pruneStmts_cons_var]
    by_cases hm : varDeclMarked ex ds = true
    · rw [if_pos hm]
      exact ihs
    · rw [if_neg hm, scanStmts_cons_var, ihc, ihs]
      have h1 : scanVarDecl ex ds code = [] := by
        rw [scanVarDecl_nil_iff]
        exact Bool.not_eq_true _ ▸ (by simpa using hm)
      rw [h1]
      rfl
  · intro c cs ss ihc ihs
    rw [pruneStmts_cons_other, scanStmts_cons_other, ihc, ihs]
    rfl

/-- The insertion-point loop leaves the accumulator untouched when the line
list is empty or opens with a stopping line. -/
theorem findInsertIndex_stops (rest : List String) (i acc : Nat)
    (hrest : rest = [] ∨ ∃ r rs, rest = r :: rs ∧
        jsStartsWith (jsTrim r) "import " = false ∧ jsTrim r ≠ "") :
    findInsertIndex rest i acc = acc := by
  rcases hrest with h | ⟨r, rs, hr, h1, h2⟩
  · subst h
    rfl
  · subst hr
    unfold findInsertIndex
    rw [h1]
    simp [h2]

/-- On a file made of a leading block of import lines and blank lines followed
by a stopping line (or nothing at all), the insertion-point loop of
updateAppFile lands one line past the last import line of the leading block,
or keeps the accumulator when the block has no import line. -/
theorem findInsertIndex_leading (rest : List String)
    (hrest : rest = [] ∨ ∃ r rs, rest = r :: rs ∧
        jsStartsWith (jsTrim r) "import " = false ∧ jsTrim r ≠ "") :
    ∀ pre : List String,
      (∀ l ∈ pre, jsStartsWith (jsTrim l) "import " = true ∨ jsTrim l = "") →
      ∀ i acc : Nat,
        findInsertIndex (pre ++ rest) i acc
          = match lastImportPos pre with
            | some j => i + j + 1
            | none => acc := by
  intro pre
  induction pre with
  | nil =>
      intro _ i acc
      simp only [List.nil_append, lastImportPos]
      exact findInsertIndex_stops rest i acc hrest
  | cons l pre ih =>
      intro hpre i acc
      have hl := hpre l (List.mem_cons_self l pre)
      have hpre2 : ∀ x ∈ pre, jsStartsWith (jsTrim x) "import " = true ∨ jsTrim x = "" :=
        fun x hx => hpre x (List.mem_cons_of_mem _ hx)
      rcases hl with himp | hblank
      · rw [List.cons_append]
        unfold findInsertIndex
        rw [himp]
        simp only [if_true]
        rw [ih hpre2 (i + 1) (i + 1)]
        cases hlp : lastImportPos pre with
        | some j => simp [lastImportPos, hlp]; omega
        | none => simp [lastImportPos, hlp, himp]
      · have hnotimp : jsStartsWith (jsTrim l) "import " = false := by
          rw [hblank]
          decide
        rw [List.cons_append]
        unfold findInsertIndex
        rw [hnotimp, hblank]
        simp only [Bool.false_eq_true, if_false, beq_self_eq_true, Bool.not_true]
        rw [ih hpre2 (i + 1) acc]
        cases hlp : lastImportPos pre with
        | some j => simp [lastImportPos, hlp]; omega
        | none => simp [lastImportPos, hlp, hnotimp]

/-- A list is a Boolean front of itself followed by anything. -/
theorem isPrefixOf_append_self (a b : List Char) : List.isPrefixOf a (a ++ b) = true := by
  induction a with
  | nil => simp [List.isPrefixOf]
  | cons x xs ih => simp [List.isPrefixOf, ih]

/-- A word character is never a whitespace character. -/
theorem word_not_space (c : Char) (h : isWordChar c = true) : isSpaceChar c = false := by
  by_contra hc
  rw [Bool.not_eq_false] at hc
  unfold isSpaceChar at hc
  simp only [Bool.or_eq_true, beq_iff_eq] at hc
  rcases hc with ((h1 | h1) | h1) | h1 <;> subst h1 <;> exact absurd h (by decide)

/-- Taking and dropping a predicate across a list whose front wholly satisfies
it and whose continuation opens with a failing element splits exactly at the
boundary. -/
theorem takeWhile_dropWhile_exact (p : Char → Bool) :
    ∀ xs ys : List Char, (∀ c ∈ xs, p c = true) →
      (∀ c, ys.head? = some c → p c = false) →
      (xs ++ ys).takeWhile p = xs ∧ (xs ++ ys).dropWhile p = ys := by
  intro xs
  induction xs with
  | nil =>
      intro ys _ hy
      cases ys with
      | nil => exact ⟨rfl, rfl⟩
      | cons y ys =>
          have hpy : p y = false := hy y rfl
          simp [List.takeWhile, List.dropWhile, hpy]
  | cons x xs ih =>
      intro ys hx hy
      have hpx : p x = true := hx x (List.mem_cons_self x xs)
      have hx2 : ∀ c ∈ xs, p c = true := fun c hc => hx c (List.mem_cons_of_mem _ hc)
      obtain ⟨ht, hd⟩ := ih ys hx2 hy
      simp [List.takeWhile, List.dropWhile, hpx, ht, hd]

/-- A word character is never a dollar sign. -/
theorem wordChar_ne_dollar (c : Char) (h : isWordChar c = true) : ¬(c = '$') := by
  intro he
  subst he
  exact absurd h (by decide)

/-- On a replacement string that holds no dollar sign the JavaScript
replacement-pattern expansion is the identity. -/
theorem expandReplacement_no_dollar (matched before after : List Char) :
    ∀ l : List Char, (∀ c ∈ l, ¬(c = '$')) →
      expandReplacement matched before after l = l := by
  intro l
  induction l with
  | nil => intro _; rfl
  | cons c rest ih =>
      intro h
      have hc : ¬(c = '$') := h c (List.mem_cons_self c rest)
      have hcb : (c == '$') = false := by
        cases hb : c == '$'
        · rfl
        · exact absurd (eq_of_beq hb) hc
      have hrest : ∀ x ∈ rest, ¬(x = '$') := fun x hx => h x (List.mem_cons_of_mem _ hx)
      unfold expandReplacement
      rw [hcb]
      simp [ih hrest]

/-- The anchored replace of generateComponentFiles on a text that opens with
the function keyword, whitespace, and a word swaps exactly that span for the
replacement and keeps the remainder unchanged. -/
theorem replaceFunctionHead_spec (ws nm suffix : List Char) (repl : String)
    (hws0 : ws ≠ []) (hws : ∀ c ∈ ws, isSpaceChar c = true)
    (hnm0 : nm ≠ []) (hnm : ∀ c ∈ nm, isWordChar c = true)
    (hsuf : ∀ c, suffix.head? = some c → isWordChar c = false)
    (hrepl : ∀ c ∈ repl.toList, ¬(c = '$')) :
    replaceFunctionHead (String.mk ("function".toList ++ (ws ++ (nm ++ suffix)))) repl
      = String.mk (repl.toList ++ suffix) := by
  have hwsnm : ∀ c, (nm ++ suffix).head? = some c → isSpaceChar c = false := by
    intro c hc
    cases nm with
    | nil => exact absurd rfl hnm0
    | cons a nm2 =>
        have ha : a = c := by
          simpa using hc
        subst ha
        exact word_not_space a (hnm a (List.mem_cons_self a nm2))
  obtain ⟨hws_take, hws_drop⟩ :=
    takeWhile_dropWhile_exact isSpaceChar ws (nm ++ suffix) hws hwsnm
  obtain ⟨hnm_take, hnm_drop⟩ := takeWhile_dropWhile_exact isWordChar nm suffix hnm hsuf
  have hpre : List.isPrefixOf "function".toList
      ("function".toList ++ (ws ++ (nm ++ suffix))) = true :=
    isPrefixOf_append_self "function".toList (ws ++ (nm ++ suffix))
  have h1 : ws.isEmpty = false := by
    cases ws with
    | nil => exact absurd rfl hws0
    | cons a l => rfl
  have h2 : nm.isEmpty = false := by
    cases nm with
    | nil => exact absurd rfl hnm0
    | cons a l => rfl
  have hlist : (String.mk ("function".toList ++ (ws ++ (nm ++ suffix)))).toList
      = "function".toList ++ (ws ++ (nm ++ suffix)) := rfl
  have hexp : expandReplacement ("function".toList ++ ws ++ nm) [] suffix repl.toList
      = repl.toList :=
    expandReplacement_no_dollar ("function".toList ++ ws ++ nm) [] suffix repl.toList hrepl
  unfold replaceFunctionHead
  simp only [hlist, hpre, if_true, List.drop_left, hws_take, hws_drop, hnm_take, hnm_drop,
    h1, h2, hexp]
  rfl

/-- C2: for every configured reserved entry name R and every input, no
candidate produced by a run is named R, even when a declaration with that
name and a qualifying shape exists; the exclusion comes from the classifier
itself, which rejects every reserved name, not from any later filtering of
the candidate list. -/
theorem reserved_names_never_candidates :
    (∀ R ∈ excludedNames, isExtractableComponent R = false) ∧
    (∀ ss : List Stmt, ∀ c ∈ scanStmts isExtractableComponent ss,
      excludedNames.contains c.name = false) := by
  constructor
  · decide
  · intro ss c hc
    have hex := (mem_scanStmts isExtractableComponent ss c hc).1
    by_contra hcon
    rw [Bool.not_eq_false] at hcon
    have hfalse : isExtractableComponent c.name = false := by
      unfold isExtractableComponent
      rw [hcon]
      simp
    rw [hex] at hfalse
    simp at hfalse

/-- Witness for C2 at a concrete program containing both a reserved
declaration and a qualifying one. -/
theorem reserved_names_never_candidates_witness :
    excludedNames.contains
      (Component.mk "Header" "function Header() {}" "function" false).name = false :=
  reserved_names_never_candidates.2
    [Stmt.functionDecl (some "Header") "function Header() {}" [],
     Stmt.functionDecl (some "App") "function App() {}" []]
    (Component.mk "Header" "function Header() {}" "function" false)
    (by
      simp only [scanStmts_cons_fun, scanStmts_nil]
      have h1 : isExtractableComponent "Header" = true := by decide
      have h2 : isExtractableComponent "App" = false := by decide
      simp [scanFunDecl, h1, h2]
      decide)

/-- C7: the generated modules appear in the left-to-right source-declaration
order of their declarations in the original input, for any mix of named and
bound-expression forms: the module name sequence is exactly the source-order
declaration name sequence filtered through the classifier, never re-sorted. -/
theorem modules_follow_source_order (ss : List Stmt) :
    (processCode ss).components.map GeneratedModule.name
      = (sourceDeclNames ss).filter (fun n => isExtractableComponent n) := by
  show (generateComponentFiles (scanStmts isExtractableComponent ss)).map GeneratedModule.name
      = (sourceDeclNames ss).filter (fun n => isExtractableComponent n)
  unfold generateComponentFiles
  rw [List.map_map]
  have hcomp : (GeneratedModule.name ∘ generateComponentFile) = Component.name := by
    funext c
    rfl
  rw [hcomp, scanStmts_names_eq_filter]

/-- C8: every discovered candidate yields exactly one generated module whose
filename is the candidate name followed by the jsx extension, the imports
accumulator spliced into the host holds exactly one import line per candidate,
and the number of generated modules equals the number of injected import
lines. -/
theorem conservation_modules_imports (ss : List Stmt) :
    (processCode ss).components.length = (scanStmts isExtractableComponent ss).length ∧
    (processCode ss).components.map GeneratedModule.filename
      = (scanStmts isExtractableComponent ss).map (fun c => c.name ++ ".jsx") ∧
    scanImports isExtractableComponent ss
      = (scanStmts isExtractableComponent ss).map (fun c => importLine c.name) ∧
    (processCode ss).components.length = (scanImports isExtractableComponent ss).length := by
  refine ⟨?_, ?_, scanImports_eq_map isExtractableComponent ss, ?_⟩
  · show (generateComponentFiles (scanStmts isExtractableComponent ss)).length = _
    unfold generateComponentFiles
    rw [List.length_map]
  · show (generateComponentFiles (scanStmts isExtractableComponent ss)).map
        GeneratedModule.filename = _
    unfold generateComponentFiles
    rw [List.map_map]
    rfl
  · show (generateComponentFiles (scanStmts isExtractableComponent ss)).length = _
    unfold generateComponentFiles
    rw [List.length_map, scanImports_eq_map isExtractableComponent ss, List.length_map]

/-- C10: the runtime-import test holds exactly when the body text contains one
of the five marker substrings, including any single left angle bracket such as
a less-than comparison; a scanned candidate whose text contains a left angle
bracket gets the React import prepended to its module, and one whose text
matches none of the markers gets no runtime import. -/
theorem needsReact_iff_markers (code : String) :
    (componentNeedsReact code = true ↔
      (jsIncludes code "useState" = true ∨ jsIncludes code "useEffect" = true ∨
       jsIncludes code "React." = true ∨ jsIncludes code "<" = true ∨
       jsIncludes code "/>" = true)) ∧
    (∀ ss : List Stmt, ∀ c ∈ scanStmts isExtractableComponent ss,
      (jsIncludes c.code "<" = true →
        (generateComponentFile c).code = reactImportText ++ convertedBody c) ∧
      (componentNeedsReact c.code = false →
        (generateComponentFile c).code = convertedBody c)) := by
  constructor
  · unfold componentNeedsReact
    simp [Bool.or_eq_true, or_assoc]
  · intro ss c hc
    have hnr := (mem_scanStmts isExtractableComponent ss c hc).2
    constructor
    · intro hlt
      have ht : c.needsReact = true := by
        rw [hnr]
        unfold componentNeedsReact
        rw [hlt]
        simp
      show formatCode ((if c.needsReact then reactImportText else "") ++ convertedBody c) = _
      rw [ht]
      rfl
    · intro hf
      have ht : c.needsReact = false := by
        rw [hnr, hf]
      show formatCode ((if c.needsReact then reactImportText else "") ++ convertedBody c) = _
      rw [ht]
      show "" ++ convertedBody c = convertedBody c
      rfl

/-- Witness for C10 at a candidate whose body holds a less-than comparison
and no markup: the module still gains the React import. -/
theorem needsReact_iff_markers_witness :
    (generateComponentFile
        (Component.mk "Cmp" "function Cmp(a, b) { return a < b; }" "function"
          (componentNeedsReact "function Cmp(a, b) { return a < b; }"))).code
      = reactImportText ++ convertedBody
          (Component.mk "Cmp" "function Cmp(a, b) { return a < b; }" "function"
            (componentNeedsReact "function Cmp(a, b) { return a < b; }")) :=
  ((needsReact_iff_markers "x").2
    [Stmt.functionDecl (some "Cmp") "function Cmp(a, b) { return a < b; }" []]
    (Component.mk "Cmp" "function Cmp(a, b) { return a < b; }" "function"
      (componentNeedsReact "function Cmp(a, b) { return a < b; }"))
    (by
      simp only [scanStmts_cons_fun, scanStmts_nil]
      have h1 : isExtractableComponent "Cmp" = true := by decide
      simp [scanFunDecl, h1])).1 (by decide)

/-- C4: when the scan of the parsed input discovers zero candidates, the API
processCode short-circuits, returning the original input string unchanged
together with an empty module list, and the removal pass leaves the host tree
untouched. -/
theorem no_candidates_returns_input (code : String) (ast : List Stmt)
    (h : scanStmts isExtractableComponentApi ast = []) :
    processCodeApi code ast = { updatedApp := code, components := [] } ∧
    pruneStmts isExtractableComponentApi ast = ast := by
  constructor
  · unfold processCodeApi
    rw [h]
    rfl
  · exact scan_nil_prune_id isExtractableComponentApi ast h

/-- Witness for C4 at a host holding only the root component. -/
theorem no_candidates_returns_input_witness :
    processCodeApi "function App() { return 1; }"
        [Stmt.functionDecl (some "App") "function App() { return 1; }" []]
      = { updatedApp := "function App() { return 1; }", components := [] } ∧
    pruneStmts isExtractableComponentApi
        [Stmt.functionDecl (some "App") "function App() { return 1; }" []]
      = [Stmt.functionDecl (some "App") "function App() { return 1; }" []] :=
  no_candidates_returns_input "function App() { return 1; }"
    [Stmt.functionDecl (some "App") "function App() { return 1; }" []]
    (by
      simp only [scanStmts_cons_fun, scanStmts_nil]
      have h1 : isExtractableComponentApi "App" = false := by decide
      simp [scanFunDecl, h1])

/-- C9: a second run over the output of a first run finds zero candidates:
the pruned host, with the injected import lines parsed back as import
statements at any position between its statements, scans to an empty
candidate list, so extraction is a fixed point. -/
theorem second_run_no_candidates (ss pre post : List Stmt) (newImports : List String)
    (h : pruneStmts isExtractableComponent ss = pre ++ post) :
    scanStmts isExtractableComponent
      (pre ++ (newImports.map Stmt.importDecl ++ post)) = [] := by
  have hpruned : scanStmts isExtractableComponent (pre ++ post) = [] := by
    rw [← h]
    exact scan_prune_nil isExtractableComponent ss
  rw [scanStmts_append] at hpruned
  rcases List.append_eq_nil.mp hpruned with ⟨h1, h2⟩
  have himp : scanStmts isExtractableComponent (newImports.map Stmt.importDecl) = [] := by
    induction newImports with
    | nil => rw [List.map_nil, scanStmts_nil]
    | cons l ls ih => rw [List.map_cons, scanStmts_cons_import]; exact ih
  rw [scanStmts_append, scanStmts_append, h1, himp, h2]
  rfl

/-- Witness for C9: a host with one extractable component and a root, rerun
on the pruned tree with the injected import line. -/
theorem second_run_no_candidates_witness :
    scanStmts isExtractableComponent
      ([Stmt.importDecl "import React from \x27react\x27;"]
        ++ ([importLine "Header"].map Stmt.importDecl
            ++ [Stmt.functionDecl (some "App") "function App() {}" []])) = [] :=
  second_run_no_candidates
    [Stmt.importDecl "import React from \x27react\x27;",
     Stmt.functionDecl (some "Header") "function Header() {}" [],
     Stmt.functionDecl (some "App") "function App() {}" []]
    [Stmt.importDecl "import React from \x27react\x27;"]
    [Stmt.functionDecl (some "App") "function App() {}" []]
    [importLine "Header"]
    (by
      have h1 : isExtractableComponent "Header" = true := by decide
      have h2 : isExtractableComponent "App" = false := by decide
      simp only [pruneStmts_cons_import, pruneStmts_cons_fun, pruneStmts_nil,
        funDeclMarked, h1, h2]
      simp)

/-- A classifier-accepted named-function candidate whose name contains a
dollar sign, with its captured declaration text. -/
def dollarCandidate : Component :=
  { name := "My$x", code := "function My$x() { return 1; }",
    type := "function", needsReact := false }

/-- Counterexample to C6: the word-character pattern stops at the dollar sign
inside the name, so only the leading word run of the name is part of the
match; the packager emits the full name and then the unmatched tail of the
name again, so the text after the name is not kept unchanged, although the
classifier accepts this name as a candidate. -/
theorem export_packager_mangles_dollar_name_cex :
    isExtractableComponent "My$x" = true ∧
    (generateComponentFile dollarCandidate).code
      = "export default function My$x$x() { return 1; }" ∧
    ¬((generateComponentFile dollarCandidate).code
        = "export default function My$x() { return 1; }") := by
  refine ⟨by decide, by decide, by decide⟩

/-- C6 amended: for a named function declaration candidate whose captured
text opens with the function keyword, whitespace, and its name, and whose
name consists solely of word characters, the packager rewrites exactly that
leading span into a default-exported function header and keeps everything
after the name unchanged (a name containing a non-word character such as a
dollar sign is instead matched only up to it and its tail is duplicated);
for a bound-expression candidate it keeps the captured statement verbatim
and appends a separate default-export statement naming the binding. -/
theorem export_packager_shapes (c : Component) (ws suffix : List Char)
    (hws0 : ws ≠ []) (hws : ∀ ch ∈ ws, isSpaceChar ch = true)
    (hnm0 : c.name.toList ≠ []) (hnm : ∀ ch ∈ c.name.toList, isWordChar ch = true)
    (hsuf : ∀ ch, suffix.head? = some ch → isWordChar ch = false) :
    (c.type = "function" →
      c.code = String.mk ("function".toList ++ (ws ++ (c.name.toList ++ suffix))) →
      (generateComponentFile c).code
        = (if c.needsReact then reactImportText else "")
            ++ (("export default function " ++ c.name) ++ String.mk suffix)) ∧
    (c.type = "arrow" →
      (generateComponentFile c).code
        = (if c.needsReact then reactImportText else "")
            ++ (c.code ++ ";\n\nexport default " ++ c.name ++ ";")) := by
  constructor
  · intro htype hcode
    show formatCode ((if c.needsReact then reactImportText else "") ++ convertedBody c) = _
    have hbody : convertedBody c
        = replaceFunctionHead c.code ("export default function " ++ c.name) := by
      unfold convertedBody
      rw [htype]
      rfl
    have hrepl : ∀ ch ∈ ("export default function " ++ c.name).toList, ¬(ch = '$') := by
      have hsplit : ("export default function " ++ c.name).toList
          = "export default function ".toList ++ c.name.toList := rfl
      rw [hsplit]
      intro ch hch
      rcases List.mem_append.mp hch with h | h
      · have hall : ∀ x ∈ "export default function ".toList, ¬(x = '$') := by decide
        exact hall ch h
      · exact wordChar_ne_dollar ch (hnm ch h)
    rw [formatCode, hbody, hcode,
      replaceFunctionHead_spec ws c.name.toList suffix _ hws0 hws hnm0 hnm hsuf hrepl]
    rfl
  · intro htype
    show formatCode ((if c.needsReact then reactImportText else "") ++ convertedBody c) = _
    have hbody : convertedBody c = c.code ++ ";\n\nexport default " ++ c.name ++ ";" := by
      unfold convertedBody
      rw [htype]
      rfl
    rw [formatCode, hbody]

/-- Witness for C6 on both declaration forms at concrete candidates. -/
theorem export_packager_shapes_witness :
    (generateComponentFile
        (Component.mk "Header" "function Header() { return 1; }" "function" false)).code
      = (if false then reactImportText else "")
          ++ (("export default function " ++ "Header") ++ String.mk "() { return 1; }".toList) ∧
    (generateComponentFile
        (Component.mk "Sidebar" "const Sidebar = () => 1" "arrow" false)).code
      = (if false then reactImportText else "")
          ++ ("const Sidebar = () => 1" ++ ";\n\nexport default " ++ "Sidebar" ++ ";") := by
  constructor
  · exact (export_packager_shapes
      (Component.mk "Header" "function Header() { return 1; }" "function" false)
      [' '] "() { return 1; }".toList
      (by decide) (by decide) (by decide) (by decide) (by decide)).1 rfl (by decide)
  · exact (export_packager_shapes
      (Component.mk "Sidebar" "const Sidebar = () => 1" "arrow" false)
      [' '] "() { return 1; }".toList
      (by decide) (by decide) (by decide) (by decide) (by decide)).2 rfl

/-- A host whose only top-level declaration is the root component, holding a
qualifying helper nested inside its body. -/
def nestedHostAst : List Stmt :=
  [Stmt.functionDecl (some "App")
     "function App() { function Widget() { return 1; } return Widget(); }"
     [Stmt.functionDecl (some "Widget") "function Widget() { return 1; }" []]]

/-- Counterexample to C1: the traversal is not restricted to top-level
declarations; the helper nested inside the root component body becomes a
candidate and is removed from the root body. -/
theorem nested_helper_extracted_cex :
    (scanStmts isExtractableComponent nestedHostAst).map Component.name = ["Widget"] ∧
    pruneStmts isExtractableComponent nestedHostAst
      = [Stmt.functionDecl (some "App")
          "function App() { function Widget() { return 1; } return Widget(); }" []] := by
  have h1 : isExtractableComponent "App" = false := by decide
  have h2 : isExtractableComponent "Widget" = true := by decide
  constructor
  · show (scanStmts isExtractableComponent nestedHostAst).map Component.name = ["Widget"]
    unfold nestedHostAst
    simp only [scanStmts_cons_fun, scanStmts_nil]
    simp [scanFunDecl, h1, h2]
  · unfold nestedHostAst
    simp only [pruneStmts_cons_fun, pruneStmts_nil, funDeclMarked, h1, h2]
    simp

/-- C1 amended: the scanner traverses function and variable declarations at
every depth of the tree, not only at top level; a qualifying declaration
nested inside the body of a non-extractable declaration does become a
candidate and is removed from its enclosing body. -/
theorem scanner_extracts_nested_declarations
    (outerName innerName outerCode innerCode : String)
    (houter : isExtractableComponent outerName = false)
    (hinner : isExtractableComponent innerName = true) :
    scanStmts isExtractableComponent
        [Stmt.functionDecl (some outerName) outerCode
          [Stmt.functionDecl (some innerName) innerCode []]]
      = [{ name := innerName, code := innerCode, type := "function",
           needsReact := componentNeedsReact innerCode }] ∧
    pruneStmts isExtractableComponent
        [Stmt.functionDecl (some outerName) outerCode
          [Stmt.functionDecl (some innerName) innerCode []]]
      = [Stmt.functionDecl (some outerName) outerCode []] := by
  constructor
  · simp only [scanStmts_cons_fun, scanStmts_nil]
    simp [scanFunDecl, houter, hinner]
  · simp only [pruneStmts_cons_fun, pruneStmts_nil, funDeclMarked, houter, hinner]
    simp

/-- Witness for the amended C1 at concrete names. -/
theorem scanner_extracts_nested_declarations_witness :
    scanStmts isExtractableComponent
        [Stmt.functionDecl (some "App") "function App() { function Card() {} }"
          [Stmt.functionDecl (some "Card") "function Card() {}" []]]
      = [{ name := "Card", code := "function Card() {}", type := "function",
           needsReact := componentNeedsReact "function Card() {}" }] ∧
    pruneStmts isExtractableComponent
        [Stmt.functionDecl (some "App") "function App() { function Card() {} }"
          [Stmt.functionDecl (some "Card") "function Card() {}" []]]
      = [Stmt.functionDecl (some "App") "function App() { function Card() {} }" []] :=
  scanner_extracts_nested_declarations "App" "Card"
    "function App() { function Card() {} }" "function Card() {}"
    (by decide) (by decide)

/-- Spec-side formalization of the C3 classifier predicate: non-empty name,
uppercase first character, length above one, and not reserved. -/
def claimedIsExtractable (name : String) : Bool :=
  !(name == "") &&
  (match name.toList with
   | [] => false
   | c :: _ => c.isUpper) &&
  decide (1 < name.toList.length) &&
  !(excludedNames.contains name)

/-- Counterexample to C3: on a name whose first character is an underscore,
hence not an uppercase letter, the code classifier accepts while the claimed
predicate rejects, because toUpperCase fixes every non-letter character. -/
theorem classifier_accepts_nonletter_first_cex :
    isExtractableComponent "_x" = true ∧ claimedIsExtractable "_x" = false := by
  decide

/-- A list contains-test is false exactly when the element is not a member. -/
theorem contains_false_iff (l : List String) (a : String) :
    (l.contains a = false) ↔ ¬(a ∈ l) := by
  constructor
  · intro h hm
    rw [show l.contains a = l.elem a from rfl, List.elem_iff.mpr hm] at h
    exact Bool.noConfusion h
  · intro h
    cases he : l.contains a
    · rfl
    · exact absurd (List.elem_iff.mp he) h

/-- C3 amended: the classifier accepts exactly the non-empty names whose
first character is fixed by toUpperCase (so lowercase-initial names are
rejected but non-letter-initial names such as underscore-initial ones are
accepted), whose length exceeds one, and which are not reserved. -/
theorem isExtractableComponent_iff (name : String) :
    isExtractableComponent name = true ↔
      (¬(name = "") ∧ (∀ c, name.toList.head? = some c → c = c.toUpper) ∧
       ¬(name ∈ excludedNames) ∧ 1 < name.toList.length) := by
  unfold isExtractableComponent
  cases hl : name.toList with
  | nil =>
      have hname : name = "" := by
        cases name with
        | mk data =>
            have hdata : data = [] := hl
            rw [hdata]
      subst hname
      simp
  | cons c rest =>
      have hne : ¬(name = "") := by
        intro h
        subst h
        exact List.noConfusion hl
      have hbeq : (name == "") = false := by
        cases hb : name == ""
        · rfl
        · exact absurd (by exact eq_of_beq hb) hne
      rw [hbeq]
      simp [hne, contains_false_iff, List.length_cons]
      exact and_assoc

/-- Witness for the amended C3 at a concrete accepted name. -/
theorem isExtractableComponent_iff_witness :
    isExtractableComponent "Header" = true :=
  (isExtractableComponent_iff "Header").mpr
    ⟨by decide,
     by
       intro c hc
       rw [show "Header".toList.head? = some 'H' from rfl] at hc
       injection hc with h
       subst h
       decide,
     by decide, by decide⟩

/-- Spec-side formalization of the C5 insertion point: one line past the last
line anywhere in the text whose trimmed form starts with the word import,
or the top of the file when no such line exists. -/
def claimedInsertIndex (lines : List String) : Nat :=
  match lastImportPos lines with
  | some j => j + 1
  | none => 0

/-- Host line list whose last import statement sits below a non-import
statement. -/
def cexHostLines : List String :=
  ["import a from \x27a\x27;", "const x = 1;", "import b from \x27b\x27;"]

/-- Counterexample to C5: on a serialized host whose last import line lies
beyond the leading import block, the rewriter inserts at line 1, not at the
line immediately following the last import line, which is line 3; the
spliced line lands before the intervening statement. -/
theorem import_insertion_point_cex :
    findInsertIndex cexHostLines 0 0 = 1 ∧
    claimedInsertIndex cexHostLines = 3 ∧
    updateAppFile (joinLines cexHostLines) [importLine "Header"]
      = joinLines ["import a from \x27a\x27;", "", importLine "Header",
                   "const x = 1;", "import b from \x27b\x27;"] := by
  refine ⟨by decide, by decide, ?_⟩
  decide

/-- C5 amended: when at least one candidate exists, the rewriter splices a
blank line followed by the accumulated import lines one line past the
last import line of the leading block of import and blank lines of the serialized
host text (at the top of the file when that block holds no import line); a
later import line below the first stopping statement does not move the
insertion point. -/
theorem import_insertion_after_leading_block (content : String) (imports : List String)
    (pre rest : List String)
    (hsplit : splitLines content = pre ++ rest)
    (hpre : ∀ l ∈ pre, jsStartsWith (jsTrim l) "import " = true ∨ jsTrim l = "")
    (hrest : rest = [] ∨ ∃ r rs, rest = r :: rs ∧
        jsStartsWith (jsTrim r) "import " = false ∧ jsTrim r ≠ "")
    (himp : imports ≠ []) :
    updateAppFile content imports
      = joinLines ((pre ++ rest).take (claimedInsertIndex pre) ++ [""] ++ imports
          ++ (pre ++ rest).drop (claimedInsertIndex pre)) := by
  have hemp : imports.isEmpty = false := by
    cases imports with
    | nil => exact absurd rfl himp
    | cons a l => rfl
  have hidx : findInsertIndex (pre ++ rest) 0 0 = claimedInsertIndex pre := by
    rw [findInsertIndex_leading rest hrest pre hpre 0 0]
    unfold claimedInsertIndex
    cases hlp : lastImportPos pre with
    | some j => simp
    | none => simp
  unfold updateAppFile spliceImports
  rw [hemp, hsplit, hidx]
  rfl

/-- Witness for the amended C5 at a concrete host with one leading import. -/
theorem import_insertion_after_leading_block_witness :
    updateAppFile (joinLines ["import React from \x27react\x27;", "function App() {}"])
        [importLine "Header"]
      = joinLines ((["import React from \x27react\x27;"] ++ ["function App() {}"]).take
            (claimedInsertIndex ["import React from \x27react\x27;"])
          ++ [""] ++ [importLine "Header"]
          ++ (["import React from \x27react\x27;"] ++ ["function App() {}"]).drop
            (claimedInsertIndex ["import React from \x27react\x27;"])) :=
  import_insertion_after_leading_block
    (joinLines ["import React from \x27react\x27;", "function App() {}"])
    [importLine "Header"]
    ["import React from \x27react\x27;"] ["function App() {}"]
    (by decide)
    (by
      intro l hl
      rw [List.mem_singleton] at hl
      subst hl
      left
      decide)
    (Or.inr ⟨"function App() {}", [], rfl, by decide, by decide⟩)
    (by decide)
